import Mathlib

/-!
# epollServ: a shallow embedding of the event loop of `epollServ.c`

The server keeps three pieces of state that the event loop changes: the set of
open descriptors, the epoll interest list, and `clientMap`, a
`std::map<int,int>` from connection descriptor to message counter.  Every
system call result is supplied by a script, so each handler is a function of the
state and of the results the kernel gives it.

Conventions of the model.

* A byte is a natural number; the only byte value the code inspects is `0`, the
  string terminator seen by `%s`.
* A C `int` is an `Int`; `tmp++` wraps modulo `2 ^ 32` (two's complement).
* `write (1, wbuf, cx)` either fails (`-1`) or hands all `cx` bytes to the sink.
  When `cx` exceeds the 512 bytes of `wbuf` the bytes past the end of `wbuf` are
  not known to the model; only their number is recorded (`Written.overrun`).
* A chunk of 512 non-zero bytes leaves no terminator inside `buf`; what `%s`
  reads past `buf` is not known to the model, and neither is `cx` then.
* `printf`, `perror`, `setsockopt`, `getnameinfo` and `fcntl` do not change the
  modelled state and are left out.
* The batches returned by `epoll_wait` are handled one event after the other, so
  a run is the sequence of the events of all batches.
-/

namespace EpollServ

/-! ## Constants -/

/-- A byte of a buffer. -/
abbrev Byte := Nat

/-- The size of `buf` and `wbuf`: `#define BUFFERSIZE 512`. -/
def BUFFERSIZE : Nat := 512

/-- Linux value of `EPOLLIN` (from `sys/epoll.h`). -/
def EPOLLIN : Nat := 1

/-- Linux value of `EPOLLERR` (from `sys/epoll.h`). -/
def EPOLLERR : Nat := 8

/-- Linux value of `EPOLLHUP` (from `sys/epoll.h`). -/
def EPOLLHUP : Nat := 16

/-- Linux value of `EPOLLET` (from `sys/epoll.h`). -/
def EPOLLET : Nat := 2147483648

/-- Linux value of `EAGAIN` (from `errno.h`). -/
def EAGAIN : Nat := 11

/-- Linux value of `EWOULDBLOCK` (from `errno.h`); the same number as `EAGAIN`. -/
def EWOULDBLOCK : Nat := 11

/-- Largest value of a C `int`. -/
def INT_MAX : Int := 2147483647

/-- Smallest value of a C `int`. -/
def INT_MIN : Int := -2147483648

/-- The value is representable as a C `int`. -/
def IsCInt (n : Int) : Prop := INT_MIN ≤ n ∧ n ≤ INT_MAX

instance (n : Int) : Decidable (IsCInt n) := by
  unfold IsCInt; infer_instance

/-- Reduction of an integer to the range of a C `int` (two's complement). -/
def wrapInt (n : Int) : Int := (n + 2147483648) % 4294967296 - 2147483648

/-- The statement `tmp++` on a C `int`. -/
def incr (tmp : Int) : Int := wrapInt (tmp + 1)

/-! ## Formatting: `snprintf (wbuf, BUFFERSIZE, "(fd:%d seq:%d) %s", fd, seq, buf)` -/

/-- Decimal digits of a natural number, most significant first, as ASCII codes.
The first argument bounds the number of digits produced. -/
def digitsCore : Nat → Nat → List Byte → List Byte
  | 0, _, acc => acc
  | fuel + 1, n, acc =>
    if n < 10 then (48 + n) :: acc
    else digitsCore fuel (n / 10) ((48 + n % 10) :: acc)

/-- Decimal text of a natural number. -/
def natDigits (n : Nat) : List Byte := digitsCore (n + 1) n []

/-- The conversion `%d`: decimal text of an `int`, with `-` (45) when negative. -/
def fmtInt : Int → List Byte
  | Int.ofNat n => natDigits n
  | Int.negSucc n => 45 :: natDigits (n + 1)

/-- The text `(fd:<fd> seq:<seq>) ` that starts every formatted chunk. -/
def tag (fd seq : Int) : List Byte :=
  [40, 102, 100, 58] ++ fmtInt fd ++ [32, 115, 101, 113, 58] ++ fmtInt seq ++ [41, 32]

/-- The index at which `buf[count]=0` stores the terminator after a read of
`count` bytes. -/
def terminatorIndex (count : Nat) : Nat := count

/-- The cells of `buf` after `read` stored `chunk` and `buf[count]=0` ran.  For
`count` below `BUFFERSIZE` the terminator lies in `buf`.  When the chunk fills
`buf`, index `count` is past its last cell: the store falls outside `buf`, whose
cells hold the chunk alone. -/
def terminated (chunk : List Byte) : List Byte :=
  if chunk.length < BUFFERSIZE then chunk ++ [0] else chunk

/-- The conversion `%s` applied to the cells of a buffer: the bytes before the
first zero byte.  When no cell is zero the conversion reads on past the buffer,
and the text it produces is not determined by the buffer: `none`. -/
def cString (buf : List Byte) : Option (List Byte) :=
  if 0 ∈ buf then some (buf.takeWhile (fun b => b ≠ 0)) else none

/-- The complete text that the format string produces for a chunk, when the
cells of `buf` determine it. -/
def formatted (fd seq : Int) (chunk : List Byte) : Option (List Byte) :=
  (cString (terminated chunk)).map (fun str => tag fd seq ++ str)

/-- The call `snprintf (wbuf, size, ...)` for a complete text `s`: the bytes it
stores into `wbuf` (at most `size - 1` bytes of text and a terminator) and the
value it returns (the length of the complete text). -/
def snprintf (size : Nat) (s : List Byte) : List Byte × Nat :=
  (if size = 0 then [] else s.take (size - 1) ++ [0], s.length)

/-- One call `write (1, wbuf, cx)` that succeeded, as seen by the sink. -/
structure Written where
  /-- The descriptor formatted into the tag. -/
  fd : Int
  /-- The counter value formatted into the tag. -/
  seq : Int
  /-- The bytes taken from `wbuf`. -/
  bytes : List Byte
  /-- The number of further bytes taken from memory past the end of `wbuf`;
  `none` when the cells of `buf` do not determine the length given to `write`. -/
  overrun : Option Nat
  deriving DecidableEq

/-- The write performed for one chunk: format into `wbuf`, then write `cx` bytes
starting at `wbuf`.  When `%s` runs past `buf` the complete text starts with the
tag and the whole chunk, which is more than `wbuf` holds, so `wbuf` is filled
from that start and all of it is written, followed by bytes from beyond it. -/
def forward (fd seq : Int) (chunk : List Byte) : Written :=
  match formatted fd seq chunk with
  | some text =>
    let r := snprintf BUFFERSIZE text
    { fd := fd, seq := seq, bytes := r.1.take r.2, overrun := some (r.2 - BUFFERSIZE) }
  | none =>
    { fd := fd, seq := seq, bytes := (snprintf BUFFERSIZE (tag fd seq ++ chunk)).1,
      overrun := none }

/-- The value `cx` passed to `write` as the length for one chunk, when the cells
of `buf` determine it. -/
def cx (fd seq : Int) (chunk : List Byte) : Option Nat :=
  (formatted fd seq chunk).map (fun text => (snprintf BUFFERSIZE text).2)

/-! ## The connection table `std::map<int,int> clientMap` -/

/-- A `std::map<int,int>`: the value stored under each key, if any. -/
abbrev ClientMap := Int → Option Int

namespace ClientMap

/-- The map with no entry. -/
def empty : ClientMap := fun _ => none

/-- The expression `clientMap[k]` of `std::map`: the value under `k` and the map
afterwards.  When `k` has no entry, `operator[]` inserts one with the
value-initialised `int`, `0`. -/
def index (m : ClientMap) (k : Int) : Int × ClientMap :=
  match m k with
  | some v => (v, m)
  | none => (0, fun j => if j = k then some 0 else m j)

/-- The statement `clientMap[k] = v`. -/
def assign (m : ClientMap) (k v : Int) : ClientMap :=
  fun j => if j = k then some v else (m.index k).2 j

/-- The call `clientMap.erase (k)`. -/
def erase (m : ClientMap) (k : Int) : ClientMap :=
  fun j => if j = k then none else m j

end ClientMap

/-! ## Server state and system-call results -/

/-- The state of the process that the event loop reads and changes. -/
structure Server where
  /-- The listening socket. -/
  sfd : Int
  /-- Which descriptors are open. -/
  opened : Int → Bool
  /-- The interest list of the epoll instance: the event mask of each
  registered descriptor. -/
  epoll : Int → Option Nat
  /-- The connection table. -/
  clientMap : ClientMap
  /-- The writes made to standard output by the read path, oldest first. -/
  out : List Written

/-- How a handler ends. -/
inductive Run (α : Type) where
  /-- The handler ran to its end. -/
  | ret (a : α)
  /-- The process called `abort ()`. -/
  | abort
  /-- The script of system-call results ended while the loop was still running. -/
  | more

/-- One entry of the events array filled by `epoll_wait`. -/
structure EpollEvent where
  /-- The field `events`. -/
  events : Nat
  /-- The field `data.fd`. -/
  fd : Int

/-- The results of one iteration of the accept loop. -/
structure AcceptCall where
  /-- The value returned by `accept` (`-1` on failure). -/
  infd : Int
  /-- The value of `errno` after a failed `accept`. -/
  errno : Nat
  /-- The value returned by `epoll_ctl (efd, EPOLL_CTL_ADD, infd, &event)`. -/
  ctl : Int

/-- The results of one iteration of the read loop. -/
inductive ReadCall where
  /-- The call `read` returned `-1` with this `errno`. -/
  | fail (errno : Nat)
  /-- The call `read` stored `chunk` in `buf` and returned its length; `sinkOk`
  tells whether the `write` that follows succeeds. -/
  | bytes (chunk : List Byte) (sinkOk : Bool)

/-- The call `close (fd)`: the descriptor is no longer open and the kernel drops
it from the interest list. -/
def closeFd (s : Server) (fd : Int) : Server :=
  { s with
    opened := fun j => if j = fd then false else s.opened j
    epoll := fun j => if j = fd then none else s.epoll j }

/-! ## The handlers -/

/-- The accept loop (`while (1)` around `accept`), run on the results in the
script. -/
def acceptLoop (s : Server) : List AcceptCall → Run Server
  | [] => Run.more
  | a :: rest =>
    if a.infd = -1 then
      if a.errno = EAGAIN ∨ a.errno = EWOULDBLOCK then Run.ret s
      else Run.ret s
    else if a.ctl = -1 then Run.abort
    else
      acceptLoop
        { s with
          opened := fun j => if j = a.infd then true else s.opened j
          epoll := fun j => if j = a.infd then some (EPOLLIN ||| EPOLLET) else s.epoll j
          clientMap := s.clientMap.assign a.infd 0 }
        rest

/-- The read loop (`while (1)` around `read`): the flag `done`, the table and the
sink output when the loop is left. -/
def readLoop (fd : Int) (m : ClientMap) (out : List Written) :
    List ReadCall → Run (Bool × ClientMap × List Written)
  | [] => Run.more
  | ReadCall.fail errno :: _ =>
    if errno ≠ EAGAIN then Run.ret (true, m, out) else Run.ret (false, m, out)
  | ReadCall.bytes chunk sinkOk :: rest =>
    if chunk.length = 0 then Run.ret (true, m, out)
    else
      let r := m.index fd
      if sinkOk then readLoop fd r.2 (out ++ [forward fd r.1 chunk]) rest
      else Run.abort

/-- The read path for a ready connection: the read loop, the counter increment
after it, and the close when `done` is set. -/
def readDrain (s : Server) (fd : Int) (reads : List ReadCall) : Run Server :=
  match readLoop fd s.clientMap s.out reads with
  | Run.more => Run.more
  | Run.abort => Run.abort
  | Run.ret (done, m, out) =>
    let tmp := (m.index fd).1
    let m2 := (m.index fd).2.assign fd (incr tmp)
    let s1 := { s with clientMap := m2, out := out }
    if done then Run.ret { closeFd s1 fd with clientMap := m2.erase fd }
    else Run.ret s1

/-- One ready event together with the results of the system calls made while it
is handled. -/
structure Step where
  /-- The event. -/
  ev : EpollEvent
  /-- Results for the accept loop. -/
  accepts : List AcceptCall
  /-- Results for the read loop. -/
  reads : List ReadCall

/-- The test that sends an event to the error path. -/
def isErrorEvent (events : Nat) : Bool :=
  (events &&& EPOLLERR ≠ 0) || (events &&& EPOLLHUP ≠ 0) || !(events &&& EPOLLIN ≠ 0)

/-- The body of the `for` loop over the ready events. -/
def handleEvent (s : Server) (st : Step) : Run Server :=
  if isErrorEvent st.ev.events then
    Run.ret { closeFd s st.ev.fd with clientMap := s.clientMap.erase st.ev.fd }
  else if s.sfd = st.ev.fd then acceptLoop s st.accepts
  else readDrain s st.ev.fd st.reads

/-- The event loop on a finite sequence of ready events, in the order in which
they are handled. -/
def eventLoop (s : Server) : List Step → Run Server
  | [] => Run.ret s
  | st :: rest =>
    match handleEvent s st with
    | Run.ret s1 => eventLoop s1 rest
    | Run.abort => Run.abort
    | Run.more => Run.more

/-! ## Vocabulary for scripts and states -/

/-- The iteration leaves the read loop: `read` failed or returned zero bytes. -/
def endsLoop : ReadCall → Bool
  | ReadCall.fail _ => true
  | ReadCall.bytes chunk _ => chunk.length = 0

/-- The value of `done` when the read loop is left at this iteration. -/
def doneAfter : ReadCall → Bool
  | ReadCall.fail errno => errno ≠ EAGAIN
  | ReadCall.bytes _ _ => true

/-- The script of a read loop that reads the given chunks, forwards each of them
successfully, and then gets `last` from `read`; `rest` is never consumed. -/
def drainScript (chunks : List (List Byte)) (last : ReadCall) (rest : List ReadCall) :
    List ReadCall :=
  chunks.map (fun ch => ReadCall.bytes ch true) ++ last :: rest

/-- The descriptors that an accept loop run on the script accepts: the values
returned by `accept` before its first failure. -/
def acceptedFds : List AcceptCall → List Int
  | [] => []
  | a :: rest => if a.infd = -1 then [] else a.infd :: acceptedFds rest

/-- Every descriptor that `accept` returns in the script is not open at the time
of the call. -/
def freshAccepts (opened : Int → Bool) : List AcceptCall → Bool
  | [] => true
  | a :: rest =>
    if a.infd = -1 then true
    else !opened a.infd && freshAccepts (fun j => if j = a.infd then true else opened j) rest

/-- What the kernel guarantees about one step: the ready event names a
descriptor on the interest list, and `accept` returns descriptors that are not
open. -/
def validStep (s : Server) (st : Step) : Bool :=
  (s.epoll st.ev.fd).isSome && freshAccepts s.opened st.accepts

/-- Every step of the run is valid in the state in which it is handled. -/
def validRun (s : Server) : List Step → Bool
  | [] => true
  | st :: rest =>
    validStep s st &&
      match handleEvent s st with
      | Run.ret s1 => validRun s1 rest
      | Run.abort => true
      | Run.more => true

/-- The state in which `main` enters the event loop: the connection table is
empty, the listener is open and is the only descriptor on the interest list. -/
def Initial (s : Server) : Prop :=
  (∀ fd, s.clientMap fd = none) ∧ (∀ fd, (s.epoll fd).isSome = true ↔ fd = s.sfd) ∧
    s.opened s.sfd = true

/-- The state built by the start of `main` when `serverSock_init` returns `sfd`
and `epoll_create1` returns `efd`, with the three standard descriptors open. -/
def startup (sfd efd : Int) : Server :=
  { sfd := sfd
    opened := fun j => decide (j = 0 ∨ j = 1 ∨ j = 2 ∨ j = sfd ∨ j = efd)
    epoll := fun j => if j = sfd then some (EPOLLIN ||| EPOLLET) else none
    clientMap := ClientMap.empty
    out := [] }

/-- The registry and table agree: a descriptor other than the listener is on the
interest list exactly when it has a table entry, the listener has no entry, and
every descriptor on the interest list is open. -/
def Inv (s : Server) : Prop :=
  (∀ fd, fd ≠ s.sfd → ((s.epoll fd).isSome = true ↔ (s.clientMap fd).isSome = true)) ∧
    s.clientMap s.sfd = none ∧ (∀ fd, (s.epoll fd).isSome = true → s.opened fd = true)

/-- A server in the middle of its life: the listener is descriptor 3 and one
connection, descriptor 5, is registered with counter 0. -/
def exServer : Server :=
  { sfd := 3
    opened := fun j => decide (j = 3 ∨ j = 5)
    epoll := fun j => if j = 3 ∨ j = 5 then some (EPOLLIN ||| EPOLLET) else none
    clientMap := ClientMap.empty.assign 5 0
    out := [] }

/-- The server `exServer` after descriptor 5 has been woken `INT_MAX` times: its
counter is `INT_MAX`. -/
def exServerMax : Server :=
  { exServer with clientMap := ClientMap.empty.assign 5 INT_MAX }

/-- A listener event on descriptor 3 during which `accept` returns descriptor 5
and then reports `EAGAIN`. -/
def exAccept : Step :=
  { ev := ⟨EPOLLIN, 3⟩, accepts := [⟨5, 0, 0⟩, ⟨-1, EAGAIN, 0⟩], reads := [] }

/-- A read event on descriptor 5 during which `read` returns the given chunk and
then reports `EAGAIN`. -/
def exRead (chunk : List Byte) : Step :=
  { ev := ⟨EPOLLIN, 5⟩, accepts := [],
    reads := [ReadCall.bytes chunk true, ReadCall.fail EAGAIN] }

/-! ## Formatting lemmas -/

theorem takeWhile_append_zero (chunk : List Byte) :
    (chunk ++ [0]).takeWhile (fun b => b ≠ 0) = chunk.takeWhile (fun b => b ≠ 0) := by
  induction chunk with
  | nil => simp [List.takeWhile]
  | cons b bs ih =>
    simp only [List.cons_append, List.takeWhile_cons]
    rw [ih]

theorem takeWhile_nonzero (ch : List Byte) (h : ∀ b ∈ ch, b ≠ 0) :
    ch.takeWhile (fun b => b ≠ 0) = ch := by
  induction ch with
  | nil => rfl
  | cons b bs ih =>
    have hb : b ≠ 0 := h b (List.mem_cons_self _ _)
    have hbs : ∀ x ∈ bs, x ≠ 0 := fun x hx => h x (List.mem_cons_of_mem _ hx)
    rw [List.takeWhile_cons, ih hbs]
    simp [hb]

theorem formatted_of_short (fd seq : Int) (chunk : List Byte)
    (h : chunk.length < BUFFERSIZE) :
    formatted fd seq chunk = some (tag fd seq ++ chunk.takeWhile (fun b => b ≠ 0)) := by
  have hmem : (0 : Byte) ∈ chunk ++ [0] := by simp
  simp only [formatted, terminated, h, if_true, cString, hmem, Option.map_some',
    takeWhile_append_zero]

theorem forward_fd (fd seq : Int) (chunk : List Byte) : (forward fd seq chunk).fd = fd := by
  unfold forward
  split <;> rfl

theorem forward_seq (fd seq : Int) (chunk : List Byte) : (forward fd seq chunk).seq = seq := by
  unfold forward
  split <;> rfl

theorem snprintf_fst_starts (size : Nat) (s t : List Byte) (h : t.length + 1 ≤ size)
    (hts : t <+: s) : t <+: (snprintf size s).1 := by
  have h0 : size ≠ 0 := by omega
  obtain ⟨u, rfl⟩ := hts
  simp only [snprintf, h0, if_false]
  have e1 : List.take (size - 1) (t ++ u) = t ++ List.take (size - 1 - t.length) u := by
    rw [List.take_append_eq_append_take, List.take_of_length_le (by omega)]
  rw [e1, List.append_assoc]
  exact List.prefix_append _ _

theorem snprintf_take_starts (size : Nat) (s t : List Byte) (h : t.length + 1 ≤ size)
    (hts : t <+: s) : t <+: (snprintf size s).1.take (snprintf size s).2 := by
  have h0 : size ≠ 0 := by omega
  obtain ⟨u, rfl⟩ := hts
  simp only [snprintf, h0, if_false]
  have e1 : List.take (size - 1) (t ++ u) = t ++ List.take (size - 1 - t.length) u := by
    rw [List.take_append_eq_append_take, List.take_of_length_le (by omega)]
  rw [e1, List.append_assoc, List.take_append_eq_append_take,
    List.take_of_length_le (by simp)]
  exact List.prefix_append _ _

theorem cx_of_short (fd seq : Int) (chunk : List Byte) (h : chunk.length < BUFFERSIZE) :
    cx fd seq chunk =
      some ((tag fd seq).length + (chunk.takeWhile (fun b => b ≠ 0)).length) := by
  simp [cx, formatted_of_short fd seq chunk h, snprintf]

theorem forward_overrun_of_short (fd seq : Int) (chunk : List Byte)
    (h : chunk.length < BUFFERSIZE) :
    (forward fd seq chunk).overrun =
      some ((tag fd seq).length + (chunk.takeWhile (fun b => b ≠ 0)).length - BUFFERSIZE) := by
  simp [forward, formatted_of_short fd seq chunk h, snprintf]

theorem digitsCore_length_le (k : Nat) :
    ∀ (fuel n : Nat) (acc : List Byte), n < 10 ^ (k + 1) →
      (digitsCore fuel n acc).length ≤ acc.length + (k + 1) := by
  induction k with
  | zero =>
    intro fuel n acc hn
    cases fuel with
    | zero => simp [digitsCore]
    | succ f =>
      have : n < 10 := by simpa using hn
      simp [digitsCore, this]
  | succ k ih =>
    intro fuel n acc hn
    cases fuel with
    | zero => simp [digitsCore]
    | succ f =>
      by_cases h10 : n < 10
      · simp [digitsCore, h10]
      · have hdiv : n / 10 < 10 ^ (k + 1) := by
          rw [Nat.div_lt_iff_lt_mul (by decide)]
          calc n < 10 ^ (k + 1 + 1) := hn
            _ = 10 ^ (k + 1) * 10 := by ring
        have := ih f (n / 10) ((48 + n % 10) :: acc) hdiv
        simp only [digitsCore, h10, if_false]
        simp only [List.length_cons] at this
        omega

theorem fmtInt_length_le (n : Int) (h : IsCInt n) : (fmtInt n).length ≤ 11 := by
  obtain ⟨hlo, hhi⟩ := h
  unfold INT_MIN at hlo
  unfold INT_MAX at hhi
  cases n with
  | ofNat m =>
    have hm : m < 10 ^ (9 + 1) := by
      have : (m : Int) ≤ 2147483647 := hhi
      omega
    have := digitsCore_length_le 9 (m + 1) m [] hm
    simp only [fmtInt, natDigits]
    simp at this
    omega
  | negSucc m =>
    have hm : m + 1 < 10 ^ (9 + 1) := by
      rw [Int.negSucc_eq] at hlo
      omega
    have := digitsCore_length_le 9 (m + 1 + 1) (m + 1) [] hm
    simp only [fmtInt, natDigits, List.length_cons]
    simp at this
    omega

theorem tag_length_le (fd seq : Int) (hfd : IsCInt fd) (hseq : IsCInt seq) :
    (tag fd seq).length ≤ 33 := by
  have h1 := fmtInt_length_le fd hfd
  have h2 := fmtInt_length_le seq hseq
  simp [tag]
  omega

theorem tag_starts_forward (fd seq : Int) (chunk : List Byte)
    (hfd : IsCInt fd) (hseq : IsCInt seq) :
    tag fd seq <+: (forward fd seq chunk).bytes := by
  have h := tag_length_le fd seq hfd hseq
  have hb : (tag fd seq).length + 1 ≤ BUFFERSIZE := by unfold BUFFERSIZE; omega
  unfold forward
  cases hf : formatted fd seq chunk with
  | none => exact snprintf_fst_starts BUFFERSIZE _ (tag fd seq) hb ⟨_, rfl⟩
  | some text =>
    have htext : tag fd seq <+: text := by
      simp only [formatted, Option.map_eq_some'] at hf
      obtain ⟨str, -, rfl⟩ := hf
      exact ⟨_, rfl⟩
    exact snprintf_take_starts BUFFERSIZE text (tag fd seq) hb htext

/-! ## The connection table and the read path -/

theorem index_of_some (m : ClientMap) (k v : Int) (h : m k = some v) : m.index k = (v, m) := by
  simp [ClientMap.index, h]

theorem index_fst (m : ClientMap) (k : Int) : (m.index k).1 = (m k).getD 0 := by
  unfold ClientMap.index
  cases h : m k <;> simp

theorem index_snd_self (m : ClientMap) (k : Int) : (m.index k).2 k = some (m.index k).1 := by
  unfold ClientMap.index
  cases h : m k <;> simp [h]

theorem index_snd_other (m : ClientMap) (k g : Int) (h : g ≠ k) : (m.index k).2 g = m g := by
  unfold ClientMap.index
  cases hk : m k <;> simp [h]

theorem index_index (m : ClientMap) (k : Int) :
    (m.index k).2.index k = ((m.index k).1, (m.index k).2) :=
  index_of_some _ _ _ (index_snd_self m k)

theorem assign_self (m : ClientMap) (k v : Int) : m.assign k v k = some v := by
  simp [ClientMap.assign]

theorem assign_other (m : ClientMap) (k v g : Int) (h : g ≠ k) : m.assign k v g = m g := by
  simp [ClientMap.assign, h, index_snd_other]

theorem erase_self (m : ClientMap) (k : Int) : m.erase k k = none := by
  simp [ClientMap.erase]

theorem erase_other (m : ClientMap) (k g : Int) (h : g ≠ k) : m.erase k g = m g := by
  simp [ClientMap.erase, h]

theorem readLoop_last (fd : Int) (m : ClientMap) (out : List Written) (last : ReadCall)
    (rest : List ReadCall) (hl : endsLoop last = true) :
    readLoop fd m out (last :: rest) = Run.ret (doneAfter last, m, out) := by
  cases last with
  | fail errno =>
    by_cases h : errno = EAGAIN <;> simp [readLoop, doneAfter, h]
  | bytes chunk ok =>
    have : chunk.length = 0 := by simpa [endsLoop] using hl
    simp [readLoop, doneAfter, this]

theorem readLoop_script (fd : Int) (chunks : List (List Byte))
    (hne : ∀ ch ∈ chunks, ch ≠ []) (last : ReadCall) (rest : List ReadCall)
    (hl : endsLoop last = true) :
    ∀ (m : ClientMap) (out : List Written),
      readLoop fd m out (drainScript chunks last rest) =
        Run.ret (doneAfter last, if chunks = [] then m else (m.index fd).2,
          out ++ chunks.map (forward fd (m.index fd).1)) := by
  induction chunks with
  | nil =>
    intro m out
    simpa [drainScript] using readLoop_last fd m out last rest hl
  | cons ch chs ih =>
    intro m out
    have hch : ch.length ≠ 0 := by
      have := hne ch (List.mem_cons_self _ _)
      simpa using this
    have hchs : ∀ x ∈ chs, x ≠ [] := fun x hx => hne x (List.mem_cons_of_mem _ hx)
    have := ih hchs (m.index fd).2 (out ++ [forward fd (m.index fd).1 ch])
    simp only [drainScript] at this
    simp only [drainScript, List.map_cons, List.cons_append, readLoop, hch, if_false, if_true,
      List.append_eq]
    rw [this, index_index]
    by_cases hnil : chs = [] <;> simp [hnil]

theorem readLoop_ret_script (fd : Int) :
    ∀ (reads : List ReadCall) (m : ClientMap) (out : List Written)
      (r : Bool × ClientMap × List Written),
      readLoop fd m out reads = Run.ret r →
      ∃ chunks last rest, reads = drainScript chunks last rest ∧
        (∀ ch ∈ chunks, ch ≠ []) ∧ endsLoop last = true := by
  intro reads
  induction reads with
  | nil => intro m out r h; simp [readLoop] at h
  | cons a rest ih =>
    intro m out r h
    cases a with
    | fail errno => exact ⟨[], ReadCall.fail errno, rest, rfl, by simp, rfl⟩
    | bytes chunk ok =>
      by_cases hc : chunk.length = 0
      · exact ⟨[], ReadCall.bytes chunk ok, rest, rfl, by simp, by simp [endsLoop, hc]⟩
      · cases ok with
        | false => simp [readLoop, hc] at h
        | true =>
          simp only [readLoop, hc, if_false, if_true] at h
          obtain ⟨chunks, last, rest2, e, h1, h2⟩ := ih _ _ _ h
          refine ⟨chunk :: chunks, last, rest2, ?_, ?_, h2⟩
          · simp [drainScript, e]
          · intro ch hmem
            rcases List.mem_cons.mp hmem with rfl | h3
            · intro h0; simp [h0] at hc
            · exact h1 ch h3

/-- The state in which the read path leaves the server. -/
theorem readDrain_script (s : Server) (fd : Int) (chunks : List (List Byte))
    (hne : ∀ ch ∈ chunks, ch ≠ []) (last : ReadCall) (rest : List ReadCall)
    (hl : endsLoop last = true) :
    ∃ s1, readDrain s fd (drainScript chunks last rest) = Run.ret s1 ∧
      s1.sfd = s.sfd ∧
      s1.out = s.out ++ chunks.map (forward fd (s.clientMap.index fd).1) ∧
      (∀ g, g ≠ fd →
        s1.clientMap g = s.clientMap g ∧ s1.opened g = s.opened g ∧ s1.epoll g = s.epoll g) ∧
      (doneAfter last = true →
        s1.clientMap fd = none ∧ s1.opened fd = false ∧ s1.epoll fd = none) ∧
      (doneAfter last = false →
        s1.clientMap fd = some (incr (s.clientMap.index fd).1) ∧
          s1.opened fd = s.opened fd ∧ s1.epoll fd = s.epoll fd) := by
  have hloop := readLoop_script fd chunks hne last rest hl s.clientMap s.out
  have hidx : ∀ m : ClientMap, (m = s.clientMap ∨ m = (s.clientMap.index fd).2) →
      (m.index fd).1 = (s.clientMap.index fd).1 ∧ ∀ g, g ≠ fd → (m.index fd).2 g = s.clientMap g := by
    intro m hm
    rcases hm with rfl | rfl
    · exact ⟨rfl, fun g hg => index_snd_other _ _ _ hg⟩
    · rw [index_index]
      exact ⟨rfl, fun g hg => index_snd_other _ _ _ hg⟩
  have hm := hidx (if chunks = [] then s.clientMap else (s.clientMap.index fd).2)
    (by by_cases h : chunks = [] <;> simp [h])
  generalize (if chunks = [] then s.clientMap else (s.clientMap.index fd).2) = m at hloop hm
  obtain ⟨hm1, hm2⟩ := hm
  have hm3 : ∀ g, g ≠ fd → m g = s.clientMap g := fun g hg =>
    (index_snd_other m fd g hg).symm.trans (hm2 g hg)
  unfold readDrain
  rw [hloop]
  cases hd : doneAfter last
  · refine ⟨_, rfl, rfl, rfl, ?_, by simp, ?_⟩
    · intro g hg
      simp [assign_other _ _ _ _ hg, hm2 g hg]
    · intro _
      simp [assign_self, hm1]
  · refine ⟨_, rfl, rfl, rfl, ?_, ?_, by simp⟩
    · intro g hg
      simp [closeFd, erase_other _ _ _ hg, assign_other _ _ _ _ hg, hg, hm2 g hg]
    · intro _
      simp [closeFd, erase_self]

/-! ## The accept loop and the registry invariant -/

/-- What an accept loop that returns has done. -/
theorem acceptLoop_ret :
    ∀ (script : List AcceptCall) (s s1 : Server), acceptLoop s script = Run.ret s1 →
      s1.sfd = s.sfd ∧ s1.out = s.out ∧
      (∀ g, g ∈ acceptedFds script →
        s1.epoll g = some (EPOLLIN ||| EPOLLET) ∧ s1.clientMap g = some 0 ∧
          s1.opened g = true) ∧
      (∀ g, g ∉ acceptedFds script →
        s1.epoll g = s.epoll g ∧ s1.clientMap g = s.clientMap g ∧ s1.opened g = s.opened g) := by
  intro script
  induction script with
  | nil => intro s s1 h; simp [acceptLoop] at h
  | cons a rest ih =>
    intro s s1 h
    by_cases hfail : a.infd = -1
    · simp only [acceptLoop, hfail, if_true, ite_self] at h
      cases h
      simp [acceptedFds, hfail]
    · by_cases hctl : a.ctl = -1
      · simp [acceptLoop, hfail, hctl] at h
      · simp only [acceptLoop, hfail, hctl, if_false] at h
        obtain ⟨h1, h2, h3, h4⟩ := ih _ _ h
        refine ⟨h1, h2, ?_, ?_⟩
        · intro g hg
          simp only [acceptedFds, hfail, if_false, List.mem_cons] at hg
          by_cases hin : g ∈ acceptedFds rest
          · exact h3 g hin
          · have hga : g = a.infd := by tauto
            have := h4 g hin
            simp only [hga, if_true, assign_self] at this ⊢
            simpa [hga] using this
        · intro g hg
          simp only [acceptedFds, hfail, if_false, List.mem_cons, not_or] at hg
          have := h4 g hg.2
          simpa [hg.1, assign_other _ _ _ _ hg.1] using this

theorem acceptedFds_append (succ : List AcceptCall) (failure : AcceptCall)
    (rest : List AcceptCall) (hs : ∀ a ∈ succ, a.infd ≠ -1) (hf : failure.infd = -1) :
    acceptedFds (succ ++ failure :: rest) = succ.map AcceptCall.infd := by
  induction succ with
  | nil => simp [acceptedFds, hf]
  | cons a as ih =>
    have ha := hs a (List.mem_cons_self _ _)
    simp [acceptedFds, ha, ih (fun x hx => hs x (List.mem_cons_of_mem _ hx))]

theorem acceptLoop_returns (succ : List AcceptCall) (failure : AcceptCall)
    (hs : ∀ a ∈ succ, a.infd ≠ -1 ∧ a.ctl ≠ -1) (hf : failure.infd = -1) :
    ∀ s : Server, ∃ s1, ∀ rest, acceptLoop s (succ ++ failure :: rest) = Run.ret s1 := by
  induction succ with
  | nil => intro s; exact ⟨s, fun rest => by simp [acceptLoop, hf]⟩
  | cons a as ih =>
    intro s
    have ha := hs a (List.mem_cons_self _ _)
    simp only [List.cons_append, acceptLoop, ha.1, ha.2, if_false]
    exact ih (fun x hx => hs x (List.mem_cons_of_mem _ hx)) _

theorem fresh_not_opened :
    ∀ (script : List AcceptCall) (opened : Int → Bool), freshAccepts opened script = true →
      ∀ g, g ∈ acceptedFds script → opened g = false := by
  intro script
  induction script with
  | nil => intro opened _ g hg; simp [acceptedFds] at hg
  | cons a rest ih =>
    intro opened hfr g hg
    by_cases hfail : a.infd = -1
    · simp [acceptedFds, hfail] at hg
    · simp only [freshAccepts, hfail, if_false, Bool.and_eq_true, Bool.not_eq_true'] at hfr
      simp only [acceptedFds, hfail, if_false, List.mem_cons] at hg
      rcases hg with rfl | hg
      · exact hfr.1
      · have := ih _ hfr.2 g hg
        by_cases hga : g = a.infd
        · simp [hga] at this
        · simpa [hga] using this

theorem fresh_append_left (succ tail : List AcceptCall) (hs : ∀ a ∈ succ, a.infd ≠ -1)
    (failure : AcceptCall) (hf : failure.infd = -1) :
    ∀ opened : Int → Bool, freshAccepts opened succ = true →
      freshAccepts opened (succ ++ failure :: tail) = true := by
  induction succ with
  | nil => intro opened _; simp [freshAccepts, hf]
  | cons a as ih =>
    intro opened h
    have ha := hs a (List.mem_cons_self _ _)
    simp only [freshAccepts, ha, if_false, Bool.and_eq_true, List.cons_append] at h ⊢
    exact ⟨h.1, ih (fun x hx => hs x (List.mem_cons_of_mem _ hx)) _ h.2⟩

theorem initial_inv (s : Server) (h : Initial s) : Inv s := by
  obtain ⟨h1, h2, h3⟩ := h
  refine ⟨?_, h1 _, ?_⟩
  · intro fd hfd
    simp [h1 fd, (h2 fd), hfd]
  · intro fd hreg
    rw [(h2 fd).mp hreg]; exact h3

/-- What a read path that returns has done. -/
theorem readDrain_ret (s s1 : Server) (fd : Int) (reads : List ReadCall)
    (hrun : readDrain s fd reads = Run.ret s1) :
    ∃ chunks last rest, reads = drainScript chunks last rest ∧
      (∀ ch ∈ chunks, ch ≠ []) ∧ endsLoop last = true ∧
      s1.sfd = s.sfd ∧
      s1.out = s.out ++ chunks.map (forward fd (s.clientMap.index fd).1) ∧
      (∀ g, g ≠ fd →
        s1.clientMap g = s.clientMap g ∧ s1.opened g = s.opened g ∧ s1.epoll g = s.epoll g) ∧
      (doneAfter last = true →
        s1.clientMap fd = none ∧ s1.opened fd = false ∧ s1.epoll fd = none) ∧
      (doneAfter last = false →
        s1.clientMap fd = some (incr (s.clientMap.index fd).1) ∧
          s1.opened fd = s.opened fd ∧ s1.epoll fd = s.epoll fd) := by
  have hloop : ∃ r, readLoop fd s.clientMap s.out reads = Run.ret r := by
    unfold readDrain at hrun
    cases h : readLoop fd s.clientMap s.out reads with
    | ret r => exact ⟨r, rfl⟩
    | abort => simp [h] at hrun
    | more => simp [h] at hrun
  obtain ⟨r, hr⟩ := hloop
  obtain ⟨chunks, last, rest, rfl, hne, hl⟩ := readLoop_ret_script fd reads _ _ r hr
  obtain ⟨s2, hrun2, h⟩ := readDrain_script s fd chunks hne last rest hl
  rw [hrun] at hrun2
  cases hrun2
  exact ⟨chunks, last, rest, rfl, hne, hl, h⟩

theorem handleEvent_inv (s s1 : Server) (st : Step) (hinv : Inv s)
    (hv : validStep s st = true) (hrun : handleEvent s st = Run.ret s1) :
    s1.sfd = s.sfd ∧ Inv s1 := by
  obtain ⟨hiff, hsfd, hopen⟩ := hinv
  simp only [validStep, Bool.and_eq_true] at hv
  obtain ⟨hreg, hfresh⟩ := hv
  unfold handleEvent at hrun
  by_cases herr : isErrorEvent st.ev.events = true
  · simp only [herr, if_true] at hrun
    cases hrun
    refine ⟨rfl, ?_, ?_, ?_⟩
    · intro fd hfd
      by_cases h : fd = st.ev.fd
      · simp [closeFd, ClientMap.erase, h]
      · have := hiff fd hfd
        simpa [closeFd, ClientMap.erase, h] using this
    · by_cases h : s.sfd = st.ev.fd
      · simp [closeFd, ClientMap.erase, h]
      · simpa [closeFd, ClientMap.erase, h] using hsfd
    · intro fd
      by_cases h : fd = st.ev.fd
      · simp [closeFd, h]
      · simpa [closeFd, h] using hopen fd
  · simp only [herr, if_false] at hrun
    by_cases hl : s.sfd = st.ev.fd
    · simp only [hl, if_true] at hrun
      obtain ⟨h1, -, hacc, hframe⟩ := acceptLoop_ret _ s s1 hrun
      have hnot := fresh_not_opened _ _ hfresh
      have hsopen : s.opened s.sfd = true := hopen _ (by rw [hl]; exact hreg)
      have hsfdnot : s.sfd ∉ acceptedFds st.accepts := by
        intro hin
        have := hnot _ hin
        rw [hsopen] at this
        cases this
      refine ⟨h1, ?_, ?_, ?_⟩
      · intro fd hfd
        rw [h1] at hfd
        by_cases hin : fd ∈ acceptedFds st.accepts
        · simp [(hacc fd hin).1, (hacc fd hin).2.1]
        · rw [(hframe fd hin).1, (hframe fd hin).2.1]
          exact hiff fd hfd
      · rw [h1, (hframe _ hsfdnot).2.1]; exact hsfd
      · intro fd hfdreg
        by_cases hin : fd ∈ acceptedFds st.accepts
        · exact (hacc fd hin).2.2
        · rw [(hframe fd hin).1] at hfdreg
          rw [(hframe fd hin).2.2]
          exact hopen fd hfdreg
    · simp only [hl, if_false] at hrun
      obtain ⟨chunks, last, rest, -, -, -, h1, -, hframe, hdone, hkeep⟩ :=
        readDrain_ret s s1 _ _ hrun
      have hne : st.ev.fd ≠ s.sfd := fun h => hl h.symm
      have htab : (s.clientMap st.ev.fd).isSome = true := (hiff _ hne).mp hreg
      refine ⟨h1, ?_, ?_, ?_⟩
      · intro fd hfd
        rw [h1] at hfd
        by_cases h : fd = st.ev.fd
        · subst h
          cases hd : doneAfter last
          · have := hkeep hd
            simp [this.1, this.2.2, hreg]
          · have := hdone hd
            simp [this.1, this.2.2]
        · rw [(hframe fd h).1, (hframe fd h).2.2]
          exact hiff fd hfd
      · rw [h1, (hframe _ (Ne.symm hne)).1]; exact hsfd
      · intro fd hfdreg
        by_cases h : fd = st.ev.fd
        · subst h
          cases hd : doneAfter last
          · rw [(hkeep hd).2.1]; exact hopen _ hreg
          · rw [(hdone hd).2.2] at hfdreg; cases hfdreg
        · rw [(hframe fd h).2.2] at hfdreg
          rw [(hframe fd h).2.1]
          exact hopen fd hfdreg

theorem eventLoop_inv :
    ∀ (steps : List Step) (s s1 : Server), Inv s → validRun s steps = true →
      eventLoop s steps = Run.ret s1 → s1.sfd = s.sfd ∧ Inv s1 := by
  intro steps
  induction steps with
  | nil =>
    intro s s1 hinv _ hrun
    simp only [eventLoop] at hrun
    cases hrun
    exact ⟨rfl, hinv⟩
  | cons st rest ih =>
    intro s s1 hinv hv hrun
    simp only [validRun, Bool.and_eq_true] at hv
    simp only [eventLoop] at hrun
    cases hstep : handleEvent s st with
    | ret s2 =>
      rw [hstep] at hrun hv
      obtain ⟨e2, inv2⟩ := handleEvent_inv s s2 st hinv hv.1 hstep
      obtain ⟨e1, inv1⟩ := ih s2 s1 inv2 hv.2 hrun
      exact ⟨e1.trans e2, inv1⟩
    | abort => rw [hstep] at hrun; simp at hrun
    | more => rw [hstep] at hrun; simp at hrun

/-! ## Counters along a run -/

theorem incr_cases (c : Int) (hc : IsCInt c) :
    incr c = if c < INT_MAX then c + 1 else INT_MIN := by
  obtain ⟨hlo, hhi⟩ := hc
  unfold INT_MIN at hlo
  unfold INT_MAX at hhi
  unfold incr wrapInt INT_MAX INT_MIN
  split <;> omega

theorem startup_initial (sfd efd : Int) : Initial (startup sfd efd) := by
  refine ⟨fun fd => rfl, fun fd => ?_, by simp [startup]⟩
  by_cases h : fd = sfd <;> simp [startup, h]

/-! ## The claims -/

/-- C2 (as amended): a read-drain invocation on a connection whose table counter
is `c`, in which the reads yield `k ≥ 1` chunks and then report would-block,
forwards `k` writes, each carrying the tag for this descriptor with `seq` equal
to `c`, and leaves in the table the result of one `int` increment of `c`,
whatever `k` is: `c + 1` when `c` is below `INT_MAX`, and `INT_MIN` when `c` is
`INT_MAX`. -/
theorem C2_one_increment_per_wakeup (s : Server) (fd c : Int) (chunks : List (List Byte))
    (rest : List ReadCall)
    (hc : s.clientMap fd = some c)
    (hk : 1 ≤ chunks.length) (hne : ∀ ch ∈ chunks, ch ≠ []) :
    ∃ s1 ws, readDrain s fd (drainScript chunks (ReadCall.fail EAGAIN) rest) = Run.ret s1 ∧
      s1.out = s.out ++ ws ∧ ws.length = chunks.length ∧ 1 ≤ ws.length ∧
      (∀ w ∈ ws, w.fd = fd ∧ w.seq = c ∧ (IsCInt fd → IsCInt c → tag fd c <+: w.bytes)) ∧
      s1.clientMap fd = some (incr c) ∧
      (IsCInt c → incr c = if c < INT_MAX then c + 1 else INT_MIN) := by
  obtain ⟨s1, hrun, -, hout, -, -, hkeep⟩ :=
    readDrain_script s fd chunks hne (ReadCall.fail EAGAIN) rest rfl
  rw [index_of_some _ _ _ hc] at hout hkeep
  refine ⟨s1, chunks.map (forward fd c), hrun, hout, by simp, by simpa using hk, ?_,
    (hkeep (by simp [doneAfter])).1, incr_cases c⟩
  intro w hw
  obtain ⟨ch, -, rfl⟩ := List.mem_map.mp hw
  exact ⟨forward_fd _ _ _, forward_seq _ _ _, fun h1 h2 => tag_starts_forward fd c ch h1 h2⟩

/-- Witness for C2: descriptor 5 with counter 0 reads two chunks. -/
theorem C2_one_increment_per_wakeup_witness :
    ∃ s1 ws, readDrain exServer 5
        (drainScript [[97], [98, 99]] (ReadCall.fail EAGAIN) []) = Run.ret s1 ∧
      s1.out = exServer.out ++ ws ∧ ws.length = [[97], [98, 99]].length ∧ 1 ≤ ws.length ∧
      (∀ w ∈ ws, w.fd = 5 ∧ w.seq = 0 ∧ (IsCInt 5 → IsCInt 0 → tag 5 0 <+: w.bytes)) ∧
      s1.clientMap 5 = some (incr 0) ∧
      (IsCInt 0 → incr 0 = if (0 : Int) < INT_MAX then 0 + 1 else INT_MIN) :=
  C2_one_increment_per_wakeup exServer 5 0 [[97], [98, 99]] [] (by decide) (by decide)
    (by decide)

/-- C2 fails as stated: descriptor 5 with counter `INT_MAX` reads one chunk and
then gets would-block; the chunk is tagged with `seq` 2147483647 and the counter
afterwards is -2147483648, not 2147483648. -/
theorem C2_counterexample :
    ∃ s1, readDrain exServerMax 5 (drainScript [[97]] (ReadCall.fail EAGAIN) []) = Run.ret s1 ∧
      exServerMax.clientMap 5 = some 2147483647 ∧
      s1.out.map Written.seq = [2147483647] ∧
      s1.clientMap 5 = some (-2147483648) ∧
      s1.clientMap 5 ≠ some (2147483647 + 1) :=
  ⟨_, rfl, by decide, by decide, by decide, by decide⟩

/-- C3 (as amended): a read-drain invocation in which no chunk was read forwards
nothing; the increment after the loop is unconditional, so when the first read
reports would-block the connection stays in the table with its counter `c`
replaced by the result of one `int` increment (`c + 1` when `c` is below
`INT_MAX`, `INT_MIN` when `c` is `INT_MAX`), and when the first read reports end
of file or another error the connection's entry is removed. -/
theorem C3_increment_without_chunk (s : Server) (fd c : Int) (last : ReadCall)
    (rest : List ReadCall)
    (hc : s.clientMap fd = some c) (hl : endsLoop last = true) :
    ∃ s1, readDrain s fd (last :: rest) = Run.ret s1 ∧ s1.out = s.out ∧
      (last = ReadCall.fail EAGAIN → s1.clientMap fd = some (incr c)) ∧
      (IsCInt c → incr c = if c < INT_MAX then c + 1 else INT_MIN) ∧
      (last ≠ ReadCall.fail EAGAIN → s1.clientMap fd = none) := by
  obtain ⟨s1, hrun, -, hout, -, hdone, hkeep⟩ :=
    readDrain_script s fd [] (by simp) last rest hl
  rw [index_of_some _ _ _ hc] at hkeep
  refine ⟨s1, hrun, by simpa using hout, ?_, incr_cases c, ?_⟩
  · intro h
    exact (hkeep (by simp [h, doneAfter])).1
  · intro h
    apply (hdone _).1
    cases last with
    | fail errno =>
      have : errno ≠ EAGAIN := fun e => h (by rw [e])
      simp [doneAfter, this]
    | bytes chunk ok => rfl

/-- Witness for C3: descriptor 5 with counter 0 is woken by the end of file. -/
theorem C3_increment_without_chunk_witness :
    ∃ s1, readDrain exServer 5 (ReadCall.bytes [] true :: []) = Run.ret s1 ∧
      s1.out = exServer.out ∧
      (ReadCall.bytes [] true = ReadCall.fail EAGAIN → s1.clientMap 5 = some (incr 0)) ∧
      (IsCInt 0 → incr 0 = if (0 : Int) < INT_MAX then 0 + 1 else INT_MIN) ∧
      (ReadCall.bytes [] true ≠ ReadCall.fail EAGAIN → s1.clientMap 5 = none) :=
  C3_increment_without_chunk exServer 5 0 (ReadCall.bytes [] true) [] (by decide) (by decide)

/-- C3 fails as stated: descriptor 5 with counter 0 is woken and its first
`read` reports `EAGAIN`; nothing is forwarded, the connection stays in the table
and its counter is 1 afterwards. -/
theorem C3_counterexample :
    ∃ s1, readDrain exServer 5 (drainScript [] (ReadCall.fail EAGAIN) []) = Run.ret s1 ∧
      s1.out = exServer.out ∧ exServer.clientMap 5 = some 0 ∧ s1.clientMap 5 = some 1 :=
  ⟨_, rfl, rfl, by decide, by decide⟩

/-- C4: after a read-drain invocation on an open descriptor that is in the
table, the descriptor is closed and absent from the table if and only if the
read loop ended on a zero-byte read or on a read error other than would-block;
when the loop ended on would-block the descriptor is still open, still has its
table entry and is still on the interest list. -/
theorem C4_closed_iff_done (s : Server) (fd c : Int) (chunks : List (List Byte))
    (last : ReadCall) (rest : List ReadCall)
    (hc : s.clientMap fd = some c) (hopen : s.opened fd = true)
    (hne : ∀ ch ∈ chunks, ch ≠ []) (hl : endsLoop last = true) :
    ∃ s1, readDrain s fd (drainScript chunks last rest) = Run.ret s1 ∧
      ((s1.opened fd = false ∧ s1.clientMap fd = none) ↔
        ((∃ ok, last = ReadCall.bytes [] ok) ∨
          (∃ errno, last = ReadCall.fail errno ∧ errno ≠ EAGAIN))) ∧
      (last = ReadCall.fail EAGAIN →
        s1.opened fd = true ∧ s1.clientMap fd = some (incr c) ∧ s1.epoll fd = s.epoll fd) := by
  obtain ⟨s1, hrun, -, -, -, hdone, hkeep⟩ := readDrain_script s fd chunks hne last rest hl
  rw [index_of_some _ _ _ hc] at hkeep
  refine ⟨s1, hrun, ?_, ?_⟩
  · cases last with
    | fail errno =>
      by_cases he : errno = EAGAIN
      · have := hkeep (by simp [doneAfter, he])
        simp [this.2.1, hopen, he]
      · have := hdone (by simp [doneAfter, he])
        simp [this.1, this.2.1, he]
    | bytes chunk ok =>
      have hch : chunk = [] := by simpa [endsLoop] using hl
      have := hdone rfl
      simp [this.1, this.2.1, hch]
  · intro h
    have := hkeep (by simp [h, doneAfter])
    simp [this.1, this.2.1, this.2.2, hopen]

/-- Witness for C4: descriptor 5 reads one chunk and then the end of file. -/
theorem C4_closed_iff_done_witness :
    ∃ s1, readDrain exServer 5 (drainScript [[97]] (ReadCall.bytes [] true) []) = Run.ret s1 ∧
      ((s1.opened 5 = false ∧ s1.clientMap 5 = none) ↔
        ((∃ ok, ReadCall.bytes [] true = ReadCall.bytes [] ok) ∨
          (∃ errno, ReadCall.bytes [] true = ReadCall.fail errno ∧ errno ≠ EAGAIN))) ∧
      (ReadCall.bytes [] true = ReadCall.fail EAGAIN →
        s1.opened 5 = true ∧ s1.clientMap 5 = some (incr 0) ∧ s1.epoll 5 = exServer.epoll 5) :=
  C4_closed_iff_done exServer 5 0 [[97]] (ReadCall.bytes [] true) [] (by decide) (by decide)
    (by decide) (by decide)

/-- C5 (as amended): `clientMap[k]` never fails.  For a key that has an entry it
yields the stored counter and leaves the table unchanged; for a key without an
entry it yields 0 and creates an entry for that key with counter 0, leaving
every other entry unchanged. -/
theorem C5_lookup_inserts (m : ClientMap) (k : Int) :
    (∀ v, m k = some v → m.index k = (v, m)) ∧
      (m k = none →
        (m.index k).1 = 0 ∧ (m.index k).2 k = some 0 ∧
          ∀ g, g ≠ k → (m.index k).2 g = m g) := by
  refine ⟨fun v hv => index_of_some m k v hv, fun hn => ?_⟩
  refine ⟨by rw [index_fst, hn]; rfl, ?_, fun g hg => index_snd_other m k g hg⟩
  rw [index_snd_self, index_fst, hn]; rfl

/-- C5 fails as stated: looking up descriptor 7, which has no entry, yields 0
and creates an entry with counter 0; a read-drain invocation on descriptor 7
fails nowhere, tags its chunk with `seq:0` and leaves an entry with counter 1. -/
theorem C5_counterexample :
    ClientMap.empty 7 = none ∧ (ClientMap.index ClientMap.empty 7).1 = 0 ∧
      (ClientMap.index ClientMap.empty 7).2 7 = some 0 ∧
      ∃ s1, readDrain exServer 7 (drainScript [[97]] (ReadCall.fail EAGAIN) []) = Run.ret s1 ∧
        exServer.clientMap 7 = none ∧ s1.out.map Written.bytes = [tag 7 0 ++ [97]] ∧
        s1.clientMap 7 = some 1 :=
  ⟨rfl, rfl, by decide, _, rfl, by decide, by decide, by decide⟩

/-- C6: in every state that the event loop reaches from an initial state, when
every ready event names a registered descriptor and `accept` returns
descriptors that are not open, a descriptor other than the listener is on the
interest list if and only if it has an entry in the connection table, and the
listener has no entry. -/
theorem C6_registry_table_agree (s0 s : Server) (steps : List Step)
    (h0 : Initial s0) (hv : validRun s0 steps = true) (hrun : eventLoop s0 steps = Run.ret s) :
    (∀ fd, fd ≠ s.sfd → ((s.epoll fd).isSome = true ↔ (s.clientMap fd).isSome = true)) ∧
      s.clientMap s.sfd = none := by
  obtain ⟨-, hinv⟩ := eventLoop_inv steps s0 s (initial_inv s0 h0) hv hrun
  exact ⟨hinv.1, hinv.2.1⟩

/-- Witness for C6: one connection is accepted and woken twice. -/
theorem C6_registry_table_agree_witness :
    ∃ s, eventLoop (startup 3 4) [exAccept, exRead [97], exRead [98]] = Run.ret s ∧
      ((∀ fd, fd ≠ s.sfd → ((s.epoll fd).isSome = true ↔ (s.clientMap fd).isSome = true)) ∧
        s.clientMap s.sfd = none) :=
  ⟨_, rfl, C6_registry_table_agree (startup 3 4) _ [exAccept, exRead [97], exRead [98]]
    (startup_initial 3 4) (by decide) rfl⟩

/-- C7: when `accept` succeeds `m ≥ 0` times with fresh descriptors, each
registration succeeds, and `accept` then fails (with would-block or with any
other error), the accept loop returns without aborting and without consuming
any later result; each accepted descriptor is on the interest list with
`EPOLLIN | EPOLLET` and in the table with counter 0, and the registration and
table entry of every other descriptor are unchanged. -/
theorem C7_accept_loop (s : Server) (succ : List AcceptCall) (failure : AcceptCall)
    (hs : ∀ a ∈ succ, a.infd ≠ -1 ∧ a.ctl ≠ -1) (hf : failure.infd = -1)
    (hfresh : freshAccepts s.opened succ = true) :
    ∃ s1, (∀ rest, acceptLoop s (succ ++ failure :: rest) = Run.ret s1) ∧
      (∀ a ∈ succ, s.opened a.infd = false ∧
        s1.epoll a.infd = some (EPOLLIN ||| EPOLLET) ∧ s1.clientMap a.infd = some 0) ∧
      (∀ g, (∀ a ∈ succ, a.infd ≠ g) →
        s1.epoll g = s.epoll g ∧ s1.clientMap g = s.clientMap g) := by
  obtain ⟨s1, hrun⟩ := acceptLoop_returns succ failure hs hf s
  obtain ⟨-, -, hacc, hframe⟩ := acceptLoop_ret _ s s1 (hrun [])
  have hfds := acceptedFds_append succ failure [] (fun a ha => (hs a ha).1) hf
  have hfr := fresh_append_left succ [] (fun a ha => (hs a ha).1) failure hf s.opened hfresh
  refine ⟨s1, hrun, ?_, ?_⟩
  · intro a ha
    have hmem : a.infd ∈ acceptedFds (succ ++ failure :: []) := by
      rw [hfds]; exact List.mem_map_of_mem _ ha
    exact ⟨fresh_not_opened _ _ hfr _ hmem, (hacc _ hmem).1, (hacc _ hmem).2.1⟩
  · intro g hg
    have hmem : g ∉ acceptedFds (succ ++ failure :: []) := by
      rw [hfds]
      intro hin
      obtain ⟨a, ha, rfl⟩ := List.mem_map.mp hin
      exact hg a ha rfl
    exact ⟨(hframe g hmem).1, (hframe g hmem).2.1⟩

/-- Witness for C7: descriptors 6 and 7 are accepted, then `accept` fails with
`EMFILE` (24). -/
theorem C7_accept_loop_witness :
    ∃ s1, (∀ rest, acceptLoop exServer ([⟨6, 0, 0⟩, ⟨7, 0, 0⟩] ++ ⟨-1, 24, 0⟩ :: rest) =
        Run.ret s1) ∧
      (∀ a ∈ [(⟨6, 0, 0⟩ : AcceptCall), ⟨7, 0, 0⟩], exServer.opened a.infd = false ∧
        s1.epoll a.infd = some (EPOLLIN ||| EPOLLET) ∧ s1.clientMap a.infd = some 0) ∧
      (∀ g, (∀ a ∈ [(⟨6, 0, 0⟩ : AcceptCall), ⟨7, 0, 0⟩], a.infd ≠ g) →
        s1.epoll g = exServer.epoll g ∧ s1.clientMap g = exServer.clientMap g) :=
  C7_accept_loop exServer [⟨6, 0, 0⟩, ⟨7, 0, 0⟩] ⟨-1, 24, 0⟩ (by decide) (by decide)
    (by decide)

/-- C8: a read-drain invocation on descriptor `fd` leaves the table entry of
every other descriptor (its presence and its counter) as it was, and every write
made during the invocation carries the tag of `fd` and of the counter of `fd`. -/
theorem C8_other_connections_untouched (s s1 : Server) (fd : Int) (reads : List ReadCall)
    (hrun : readDrain s fd reads = Run.ret s1) :
    (∀ g, g ≠ fd → s1.clientMap g = s.clientMap g) ∧
      ∃ ws, s1.out = s.out ++ ws ∧
        ∀ w ∈ ws, w.fd = fd ∧ w.seq = (s.clientMap.index fd).1 ∧
          (∀ c, s.clientMap fd = some c → w.seq = c) ∧
          (IsCInt fd → IsCInt w.seq → tag fd w.seq <+: w.bytes) := by
  obtain ⟨chunks, last, rest, -, -, -, -, hout, hframe, -, -⟩ := readDrain_ret s s1 fd reads hrun
  refine ⟨fun g hg => (hframe g hg).1, _, hout, ?_⟩
  intro w hw
  obtain ⟨ch, -, rfl⟩ := List.mem_map.mp hw
  refine ⟨forward_fd _ _ _, forward_seq _ _ _, ?_, ?_⟩
  · intro c hc
    rw [forward_seq, index_of_some _ _ _ hc]
  · intro h1 h2
    rw [forward_seq] at h2 ⊢
    exact tag_starts_forward fd _ ch h1 h2

/-- Witness for C8: descriptor 5 reads one chunk and then the end of file. -/
theorem C8_other_connections_untouched_witness :
    ∃ s1, readDrain exServer 5 (drainScript [[97]] (ReadCall.bytes [] true) []) = Run.ret s1 ∧
      ((∀ g, g ≠ 5 → s1.clientMap g = exServer.clientMap g) ∧
        ∃ ws, s1.out = exServer.out ++ ws ∧
          ∀ w ∈ ws, w.fd = 5 ∧ w.seq = (exServer.clientMap.index 5).1 ∧
            (∀ c, exServer.clientMap 5 = some c → w.seq = c) ∧
            (IsCInt 5 → IsCInt w.seq → tag 5 w.seq <+: w.bytes)) :=
  ⟨_, rfl, C8_other_connections_untouched exServer _ 5
    (drainScript [[97]] (ReadCall.bytes [] true) []) rfl⟩

/-- C10 fails on the code.  A read that fills `buf` returns `count = 512`, and
the terminator is then stored at index 512, one past the last cell of the
512-byte `buf`.  A read of 500 non-zero bytes on descriptor 5 with counter 0 is
formatted to 513 bytes, `snprintf` returns 513 and `write` is given the length
513, one byte more than the 512-byte `wbuf` holds. -/
theorem C10_buffer_overrun :
    BUFFERSIZE ≤ terminatorIndex 512 ∧
      cx 5 0 (List.replicate 500 97) = some 513 ∧
      BUFFERSIZE < 513 ∧
      (forward 5 0 (List.replicate 500 97)).overrun = some 1 := by
  have hshort : (List.replicate 500 97 : List Byte).length < BUFFERSIZE := by
    rw [List.length_replicate]; decide
  have htw : (List.replicate 500 97 : List Byte).takeWhile (fun b => b ≠ 0) =
      List.replicate 500 97 :=
    takeWhile_nonzero _ (by
      intro b hb
      rw [List.eq_of_mem_replicate hb]; decide)
  have htag : (tag 5 0).length = 13 := by decide
  refine ⟨by decide, ?_, by decide, ?_⟩
  · rw [cx_of_short 5 0 _ hshort, htw, htag, List.length_replicate]
  · rw [forward_overrun_of_short 5 0 _ hshort, htw, htag, List.length_replicate]
    rfl

end EpollServ
